import Mathlib

/-!
Verification of the adaptive block-inversion engine of fobfuscate.

The repository holds two revisions of the same tool:
* `src/main.c` with `encrypt` : step starts at 8, the degradation loop runs
  AFTER each block operation, `main` performs no NULL check on `read_file`.
* `src/src/main.c` with `obfuscate` : step starts at 8/16/32 according to the
  CPU capability record, the degradation loop runs BEFORE each block
  operation, `main` checks the `read_file` result.

Buffers are modelled as `List Nat` whose elements are bytes (theorems carry
the hypothesis that every element is below 256, which the C `char` type
guarantees).  A block flip reinterprets `step` bytes as a little-endian
unsigned integer, complements it within `8 * step` bits and writes it back,
exactly as the `flip_block` macro and the SSE/AVX inline-assembly paths do.
Loops are written with an explicit fuel argument so that every definition is
executable by kernel reduction; fuel equal to the buffer length is always
sufficient because each iteration advances the cursor by at least one byte,
and the specification lemmas carry the fuel-adequacy hypothesis explicitly.
-/

/-- Little-endian value of a byte list: byte 0 is the least significant.
Models reading `*(uintN_t *)&buf[pos]` on the little-endian hosts the
program insists on at build time. -/
def leDecode : List Nat → Nat
  | [] => 0
  | b :: t => b % 256 + 256 * leDecode t

/-- Write a value back as `w` little-endian bytes, the effect of
`*(uintN_t *)&buf[pos] = v`. -/
def leEncode : Nat → Nat → List Nat
  | 0, _ => []
  | w + 1, v => v % 256 :: leEncode w (v / 256)

/-- Bitwise NOT of one byte. -/
def byteNot (b : Nat) : Nat := 255 - b

/-- The `flip_block` macro (and the 16/32-byte vector paths, whose observable
effect is the same): load the `w` bytes at `pos` as one little-endian
integer, complement it in `8 * w` bits, store it back. -/
def flipBlock (buffer : List Nat) (pos w : Nat) : List Nat :=
  let v := leDecode ((buffer.drop pos).take w)
  buffer.take pos ++ leEncode w (2 ^ (8 * w) - 1 - v) ++ buffer.drop (pos + w)

/-- One run of the inner degradation while-loop,
`while (((current_pos + step) >= buf_size) && step > 1) step >>= 1;`
with an explicit fuel bound on the number of halvings. -/
def degradeAux (pos len : Nat) : Nat → Nat → Nat
  | 0, step => step
  | f + 1, step =>
    if len ≤ pos + step ∧ 2 ≤ step then degradeAux pos len f (step / 2) else step

/-- The degradation loop itself; fuel `step` always suffices since the step
at least halves at every pass. -/
def degrade (pos len step : Nat) : Nat := degradeAux pos len step step

/-- The `struct cpu_info` capability record filled in by `amd64_cpu_tests`. -/
structure cpu_info where
  has_sse3 : Bool
  has_sse2 : Bool
  has_avx : Bool
deriving DecidableEq

/-- A capability record with no vector extension: only scalar widths. -/
def scalarInfo : cpu_info := ⟨false, false, false⟩

/-- Initial step selection at the top of `obfuscate` (src/src/main.c lines
153-163): 8 bytes by default, 16 with SSE2/SSE3, 32 with AVX (the AVX test
runs last and wins). -/
def initStep (info : cpu_info) : Nat :=
  if info.has_avx then 32 else if info.has_sse2 || info.has_sse3 then 16 else 8

/-- Result of one sweep: the final buffer, the list of `(position, step)`
pairs of the block operations actually applied, in order, and the final
value of `current_pos`. -/
structure SweepOut where
  buf : List Nat
  trace : List (Nat × Nat)
  endPos : Nat
deriving DecidableEq

/-- The sweep loop of `obfuscate` (src/src/main.c lines 165-216): while the
cursor is below `len`, run the degradation loop, flip one block at the
degraded width, advance the cursor by that width. -/
def obfLoop (len : Nat) : Nat → List Nat → Nat → Nat → SweepOut
  | 0, buffer, pos, _ => ⟨buffer, [], pos⟩
  | fuel + 1, buffer, pos, step =>
    if pos < len then
      let s := degrade pos len step
      let r := obfLoop len fuel (flipBlock buffer pos s) (pos + s) s
      ⟨r.buf, (pos, s) :: r.trace, r.endPos⟩
    else ⟨buffer, [], pos⟩

/-- The sweep loop of `encrypt` (src/main.c lines 95-122): while the cursor
is below `len`, flip one block at the CURRENT width, advance the cursor,
and only then run the degradation loop for the next iteration. -/
def encLoop (len : Nat) : Nat → List Nat → Nat → Nat → SweepOut
  | 0, buffer, pos, _ => ⟨buffer, [], pos⟩
  | fuel + 1, buffer, pos, step =>
    if pos < len then
      let buffer2 := flipBlock buffer pos step
      let r := encLoop len fuel buffer2 (pos + step) (degrade (pos + step) len step)
      ⟨r.buf, (pos, step) :: r.trace, r.endPos⟩
    else ⟨buffer, [], pos⟩

/-- `obfuscate(info, buf, buf_size)` with `buf_size` equal to the length of
the modelled buffer, as `main` always calls it. -/
def obfRun (info : cpu_info) (buffer : List Nat) : SweepOut :=
  obfLoop buffer.length buffer.length buffer 0 (initStep info)

/-- The buffer produced by one `obfuscate` sweep. -/
def obfuscate (info : cpu_info) (buffer : List Nat) : List Nat :=
  (obfRun info buffer).buf

/-- `encrypt(buf, buf_size)` of src/main.c, step fixed at 8. -/
def encRun (buffer : List Nat) : SweepOut :=
  encLoop buffer.length buffer.length buffer 0 8

/-- The buffer produced by one `encrypt` sweep. -/
def encrypt (buffer : List Nat) : List Nat :=
  (encRun buffer).buf

/-- Observable outcome of one process run: exit status, whether the sweep
engine was invoked, whether `writeback_file` was called, and the buffer
handed to it when its contents are defined. -/
structure RunResult where
  exitCode : Nat
  invokedEngine : Bool
  wroteOutput : Bool
  written : Option (List Nat)
deriving DecidableEq

/-- `main` of src/src/main.c (lines 243-254), after argument parsing: the
`read_file` result is `none` on a missing/unreadable file, in which case the
function prints an error and returns 1 without calling `obfuscate` or
`writeback_file`; otherwise it obfuscates, writes back and returns 0. -/
def fob_main (info : cpu_info) (readResult : Option (List Nat)) : RunResult :=
  match readResult with
  | none => ⟨1, false, false, none⟩
  | some buffer => ⟨0, true, true, some (obfuscate info buffer)⟩

/-- `main` of src/main.c (lines 131-139), after the argc check: the
`read_file` result is never inspected, so `encrypt` and `writeback_file`
run unconditionally and the function returns 0 even when the read failed
(the written contents are then undefined behaviour, modelled as `none`). -/
def vega_main (readResult : Option (List Nat)) : RunResult :=
  match readResult with
  | none => ⟨0, true, true, none⟩
  | some buffer => ⟨0, true, true, some (encrypt buffer)⟩

/-- The block trace `tr` tiles the index interval from `pos` to `len`:
blocks are contiguous, non-overlapping, of positive width, in bounds, and
cover the interval exactly. -/
def covers : List (Nat × Nat) → Nat → Nat → Prop
  | [], pos, len => pos = len
  | e :: tr, pos, len => e.1 = pos ∧ 1 ≤ e.2 ∧ pos + e.2 ≤ len ∧ covers tr (pos + e.2) len

/-- Block `e` touches byte index `i`. -/
def touches (i : Nat) (e : Nat × Nat) : Bool := decide (e.1 ≤ i ∧ i < e.1 + e.2)

/-! ## Properties of the degradation loop -/

lemma degradeAux_one_le (pos len : Nat) :
    ∀ fuel step, 1 ≤ step → 1 ≤ degradeAux pos len fuel step := by
  intro fuel
  induction fuel with
  | zero => intro step h; simpa [degradeAux] using h
  | succ f ih =>
    intro step h
    simp only [degradeAux]
    split
    · exact ih (step / 2) (by omega)
    · exact h

lemma degradeAux_le (pos len : Nat) :
    ∀ fuel step, degradeAux pos len fuel step ≤ step := by
  intro fuel
  induction fuel with
  | zero => intro step; simp [degradeAux]
  | succ f ih =>
    intro step
    simp only [degradeAux]
    split
    · exact le_trans (ih (step / 2)) (by omega)
    · exact le_refl _

lemma degradeAux_fits (pos len : Nat) :
    ∀ fuel step, step ≤ fuel → 1 ≤ step → pos < len →
      pos + degradeAux pos len fuel step < len ∨ degradeAux pos len fuel step = 1 := by
  intro fuel
  induction fuel with
  | zero => intro step hf h1; omega
  | succ f ih =>
    intro step hf h1 hp
    simp only [degradeAux]
    split
    · rename_i hc
      exact ih (step / 2) (by omega) (by omega) hp
    · rename_i hc
      rcases Nat.lt_or_ge step 2 with h2 | h2
      · right; omega
      · left; omega

lemma degradeAux_pow (pos len : Nat) :
    ∀ fuel k, ∃ j, degradeAux pos len fuel (2 ^ k) = 2 ^ j := by
  intro fuel
  induction fuel with
  | zero => intro k; exact ⟨k, rfl⟩
  | succ f ih =>
    intro k
    simp only [degradeAux]
    split
    · rename_i hc
      have hk : k ≠ 0 := by
        intro h0; rw [h0] at hc; simp at hc
      obtain ⟨k', rfl⟩ : ∃ k', k = k' + 1 := ⟨k - 1, by omega⟩
      have hdiv : 2 ^ (k' + 1) / 2 = 2 ^ k' := by
        rw [Nat.pow_succ]; omega
      rw [hdiv]
      exact ih k'
    · exact ⟨k, rfl⟩

lemma degradeAux_max (pos len : Nat) :
    ∀ fuel k j, 2 ^ k ≤ fuel → 2 ^ j ≤ 2 ^ k → pos + 2 ^ j < len →
      2 ^ j ≤ degradeAux pos len fuel (2 ^ k) := by
  intro fuel
  induction fuel with
  | zero =>
    intro k j hf
    have := Nat.one_le_two_pow (n := k)
    omega
  | succ f ih =>
    intro k j hf hjk hfit
    simp only [degradeAux]
    split
    · rename_i hc
      have hk : k ≠ 0 := by
        intro h0; rw [h0] at hc; simp at hc
      obtain ⟨k', rfl⟩ : ∃ k', k = k' + 1 := ⟨k - 1, by omega⟩
      have hdiv : 2 ^ (k' + 1) / 2 = 2 ^ k' := by
        rw [Nat.pow_succ]; omega
      rw [hdiv]
      have hjlt : 2 ^ j < 2 ^ (k' + 1) := by omega
      have hjk' : j < k' + 1 := (Nat.pow_lt_pow_iff_right (by omega)).mp hjlt
      have hjk2 : 2 ^ j ≤ 2 ^ k' := Nat.pow_le_pow_right (by omega) (by omega)
      have hfuel : 2 ^ k' ≤ f := by
        have h1 : 1 ≤ 2 ^ k' := Nat.one_le_two_pow
        have : 2 ^ (k' + 1) = 2 * 2 ^ k' := by rw [Nat.pow_succ]; ring
        omega
      exact ih k' j hfuel hjk2 hfit
    · rename_i hc
      exact hjk

lemma degrade_one_le (pos len step : Nat) (h : 1 ≤ step) :
    1 ≤ degrade pos len step := degradeAux_one_le pos len step step h

lemma degrade_le (pos len step : Nat) : degrade pos len step ≤ step :=
  degradeAux_le pos len step step

lemma degrade_fits (pos len step : Nat) (h1 : 1 ≤ step) (hp : pos < len) :
    pos + degrade pos len step < len ∨ degrade pos len step = 1 :=
  degradeAux_fits pos len step step (le_refl _) h1 hp

lemma degrade_in_bounds (pos len step : Nat) (h1 : 1 ≤ step) (hp : pos < len) :
    pos + degrade pos len step ≤ len := by
  rcases degrade_fits pos len step h1 hp with h | h <;> omega

lemma degrade_pow (pos len k : Nat) : ∃ j, degrade pos len (2 ^ k) = 2 ^ j :=
  degradeAux_pow pos len (2 ^ k) k

lemma degrade_max (pos len k j : Nat) (hjk : 2 ^ j ≤ 2 ^ k)
    (hfit : pos + 2 ^ j < len) : 2 ^ j ≤ degrade pos len (2 ^ k) :=
  degradeAux_max pos len (2 ^ k) k j (le_refl _) hjk hfit

/-! ## The block flip is the bytewise complement of the block -/

lemma leDecode_lt (l : List Nat) : leDecode l < 2 ^ (8 * l.length) := by
  induction l with
  | nil => simp [leDecode]
  | cons b t ih =>
    have hb : b % 256 < 256 := Nat.mod_lt _ (by omega)
    have hlen : 8 * (b :: t).length = 8 * t.length + 8 := by
      simp [List.length_cons]; ring
    rw [hlen, pow_add]
    simp only [leDecode]
    have h8 : (2 : Nat) ^ 8 = 256 := by norm_num
    rw [h8]
    omega

lemma leEncode_complement :
    ∀ l : List Nat, (∀ b ∈ l, b < 256) →
      leEncode l.length (2 ^ (8 * l.length) - 1 - leDecode l) = l.map byteNot := by
  intro l
  induction l with
  | nil => intro _; rfl
  | cons b t ih =>
    intro hb
    have hbb : b < 256 := hb b (by simp)
    have hbt : ∀ x ∈ t, x < 256 := fun x hx => hb x (by simp [hx])
    have hd : leDecode t < 2 ^ (8 * t.length) := leDecode_lt t
    have hlen : 8 * (b :: t).length = 8 * t.length + 8 := by
      simp [List.length_cons]; ring
    have h8 : (2 : Nat) ^ 8 = 256 := by norm_num
    have hV : 2 ^ (8 * (b :: t).length) - 1 - leDecode (b :: t)
        = (255 - b) + 256 * (2 ^ (8 * t.length) - 1 - leDecode t) := by
      rw [hlen, pow_add, h8]
      simp only [leDecode]
      have hmod : b % 256 = b := Nat.mod_eq_of_lt hbb
      rw [hmod]
      omega
    show leEncode (t.length + 1) _ = byteNot b :: t.map byteNot
    rw [hV]
    simp only [leEncode]
    have hmod2 : ((255 - b) + 256 * (2 ^ (8 * t.length) - 1 - leDecode t)) % 256
        = 255 - b := by omega
    have hdiv2 : ((255 - b) + 256 * (2 ^ (8 * t.length) - 1 - leDecode t)) / 256
        = 2 ^ (8 * t.length) - 1 - leDecode t := by omega
    rw [hmod2, hdiv2, ih hbt]
    rfl

lemma flipBlock_eq (buffer : List Nat) (pos w : Nat)
    (hw : pos + w ≤ buffer.length) (hb : ∀ b ∈ buffer, b < 256) :
    flipBlock buffer pos w
      = buffer.take pos ++ ((buffer.drop pos).take w).map byteNot
        ++ buffer.drop (pos + w) := by
  have hblen : ((buffer.drop pos).take w).length = w := by
    simp [List.length_take, List.length_drop]
    omega
  have hbmem : ∀ b ∈ (buffer.drop pos).take w, b < 256 := fun b hx =>
    hb b (List.mem_of_mem_drop (List.mem_of_mem_take hx))
  have := leEncode_complement ((buffer.drop pos).take w) hbmem
  rw [hblen] at this
  unfold flipBlock
  simp only [this]

/-! ## The sweep loops complement the slice from the cursor to the end -/

lemma slice_combine (buffer : List Nat) (pos s len : Nat)
    (hps : pos + s ≤ len) (hlb : len ≤ buffer.length) :
    ((buffer.take pos ++ ((buffer.drop pos).take s).map byteNot
        ++ buffer.drop (pos + s)).take (pos + s))
      ++ (((buffer.take pos ++ ((buffer.drop pos).take s).map byteNot
        ++ buffer.drop (pos + s)).drop (pos + s)).take (len - (pos + s))).map byteNot
      ++ (buffer.take pos ++ ((buffer.drop pos).take s).map byteNot
        ++ buffer.drop (pos + s)).drop len
    = buffer.take pos ++ ((buffer.drop pos).take (len - pos)).map byteNot
      ++ buffer.drop len := by
  have hAB : (buffer.take pos ++ ((buffer.drop pos).take s).map byteNot).length
      = pos + s := by
    simp [List.length_take, List.length_drop]
    omega
  have hassoc : buffer.take pos ++ ((buffer.drop pos).take s).map byteNot
      ++ buffer.drop (pos + s)
      = (buffer.take pos ++ ((buffer.drop pos).take s).map byteNot)
        ++ buffer.drop (pos + s) := by
    rw [List.append_assoc]
  rw [hassoc, List.take_left' hAB, List.drop_left' hAB]
  have hdroplen : ((buffer.take pos ++ ((buffer.drop pos).take s).map byteNot)
      ++ buffer.drop (pos + s)).drop len
      = buffer.drop len := by
    have hsplit : len = (pos + s) + (len - (pos + s)) := by omega
    rw [hsplit]
    rw [← List.drop_drop]
    rw [List.drop_left' hAB]
    rw [List.drop_drop]
  rw [hdroplen]
  have hdd : buffer.drop (pos + s) = (buffer.drop pos).drop s := by
    rw [List.drop_drop]
  have htail : (buffer.drop pos).take (len - pos)
      = (buffer.drop pos).take s ++ ((buffer.drop pos).drop s).take (len - (pos + s)) := by
    have hsum : len - pos = s + (len - (pos + s)) := by omega
    rw [hsum, List.take_add]
  rw [htail, List.map_append, hdd]
  simp [List.append_assoc]

lemma flipBlock_length (buffer : List Nat) (pos w : Nat)
    (hw : pos + w ≤ buffer.length) (hb : ∀ b ∈ buffer, b < 256) :
    (flipBlock buffer pos w).length = buffer.length := by
  rw [flipBlock_eq buffer pos w hw hb]
  simp [List.length_take, List.length_drop]
  omega

lemma flipBlock_bytes (buffer : List Nat) (pos w : Nat)
    (hw : pos + w ≤ buffer.length) (hb : ∀ b ∈ buffer, b < 256) :
    ∀ b ∈ flipBlock buffer pos w, b < 256 := by
  rw [flipBlock_eq buffer pos w hw hb]
  intro b hmem
  rcases List.mem_append.mp hmem with hmem | hmem
  · rcases List.mem_append.mp hmem with hmem | hmem
    · exact hb b (List.mem_of_mem_take hmem)
    · rcases List.mem_map.mp hmem with ⟨x, _, rfl⟩
      unfold byteNot
      omega
  · exact hb b (List.mem_of_mem_drop hmem)

lemma obfLoop_spec (len : Nat) :
    ∀ fuel pos step (buffer : List Nat),
      len - pos ≤ fuel → pos ≤ len → len ≤ buffer.length → 1 ≤ step →
      (∀ b ∈ buffer, b < 256) →
      (obfLoop len fuel buffer pos step).buf
          = buffer.take pos ++ ((buffer.drop pos).take (len - pos)).map byteNot
            ++ buffer.drop len
        ∧ covers (obfLoop len fuel buffer pos step).trace pos len
        ∧ (obfLoop len fuel buffer pos step).endPos = len := by
  intro fuel
  induction fuel with
  | zero =>
    intro pos step buffer hf hpl hlb h1 hb
    have hpe : pos = len := by omega
    subst hpe
    simp [obfLoop, covers, List.take_append_drop]
  | succ f ih =>
    intro pos step buffer hf hpl hlb h1 hb
    by_cases hp : pos < len
    · have hs1 : 1 ≤ degrade pos len step := degrade_one_le pos len step h1
      have hsb : pos + degrade pos len step ≤ len :=
        degrade_in_bounds pos len step h1 hp
      have hwb : pos + degrade pos len step ≤ buffer.length := by omega
      have hflip := flipBlock_eq buffer pos (degrade pos len step) hwb hb
      have hlen2 := flipBlock_length buffer pos (degrade pos len step) hwb hb
      have hb2 := flipBlock_bytes buffer pos (degrade pos len step) hwb hb
      have hrec := ih (pos + degrade pos len step) (degrade pos len step)
        (flipBlock buffer pos (degrade pos len step))
        (by omega) hsb (by omega) hs1 hb2
      simp only [obfLoop, if_pos hp]
      refine ⟨?_, ⟨rfl, hs1, hsb, hrec.2.1⟩, hrec.2.2⟩
      rw [hrec.1, hflip]
      exact slice_combine buffer pos (degrade pos len step) len hsb hlb
    · have hpe : pos = len := by omega
      subst hpe
      simp [obfLoop, hp, covers, List.take_append_drop]

lemma encLoop_spec (len : Nat) :
    ∀ fuel pos step (buffer : List Nat),
      len - pos ≤ fuel → pos ≤ len → len ≤ buffer.length → 1 ≤ step →
      (pos < len → pos + step ≤ len) →
      (∀ b ∈ buffer, b < 256) →
      (encLoop len fuel buffer pos step).buf
          = buffer.take pos ++ ((buffer.drop pos).take (len - pos)).map byteNot
            ++ buffer.drop len
        ∧ covers (encLoop len fuel buffer pos step).trace pos len
        ∧ (encLoop len fuel buffer pos step).endPos = len := by
  intro fuel
  induction fuel with
  | zero =>
    intro pos step buffer hf hpl hlb h1 hfit hb
    have hpe : pos = len := by omega
    subst hpe
    simp [encLoop, covers, List.take_append_drop]
  | succ f ih =>
    intro pos step buffer hf hpl hlb h1 hfit hb
    by_cases hp : pos < len
    · have hsb : pos + step ≤ len := hfit hp
      have hwb : pos + step ≤ buffer.length := by omega
      have hflip := flipBlock_eq buffer pos step hwb hb
      have hlen2 := flipBlock_length buffer pos step hwb hb
      have hb2 := flipBlock_bytes buffer pos step hwb hb
      have hs1 : 1 ≤ degrade (pos + step) len step := degrade_one_le _ len step h1
      have hfit2 : pos + step < len →
          (pos + step) + degrade (pos + step) len step ≤ len := fun h =>
        degrade_in_bounds (pos + step) len step h1 h
      have hrec := ih (pos + step) (degrade (pos + step) len step)
        (flipBlock buffer pos step)
        (by omega) hsb (by omega) hs1 hfit2 hb2
      simp only [encLoop, if_pos hp]
      refine ⟨?_, ⟨rfl, h1, hsb, hrec.2.1⟩, hrec.2.2⟩
      rw [hrec.1, hflip]
      exact slice_combine buffer pos step len hsb hlb
    · have hpe : pos = len := by omega
      subst hpe
      simp [encLoop, hp, covers, List.take_append_drop]

/-! ## Top-level correctness of the two sweeps -/

lemma one_le_initStep (info : cpu_info) : 1 ≤ initStep info := by
  unfold initStep
  split
  · omega
  · split <;> omega

lemma initStep_pow (info : cpu_info) : ∃ k, initStep info = 2 ^ k := by
  unfold initStep
  split
  · exact ⟨5, by norm_num⟩
  · split
    · exact ⟨4, by norm_num⟩
    · exact ⟨3, by norm_num⟩

lemma slice_full (buffer : List Nat) (len : Nat) (hlen : len = buffer.length) :
    buffer.take 0 ++ ((buffer.drop 0).take (len - 0)).map byteNot ++ buffer.drop len
      = buffer.map byteNot := by
  subst hlen
  simp

/-- One `obfuscate` sweep complements every byte, its block trace tiles the
whole index range, and the cursor ends exactly at the length. -/
lemma obf_correct (info : cpu_info) (buffer : List Nat)
    (hb : ∀ b ∈ buffer, b < 256) :
    obfuscate info buffer = buffer.map byteNot
      ∧ covers (obfRun info buffer).trace 0 buffer.length
      ∧ (obfRun info buffer).endPos = buffer.length := by
  have h := obfLoop_spec buffer.length buffer.length 0 (initStep info) buffer
    (by omega) (by omega) (le_refl _) (one_le_initStep info) hb
  refine ⟨?_, h.2.1, h.2.2⟩
  unfold obfuscate
  rw [show (obfRun info buffer).buf
      = (obfLoop buffer.length buffer.length buffer 0 (initStep info)).buf from rfl]
  rw [h.1]
  exact slice_full buffer buffer.length rfl

/-- One `encrypt` sweep complements every byte provided the buffer holds at
least 8 bytes (below that the first 8-byte block runs out of bounds) or is
empty. -/
lemma enc_correct (buffer : List Nat) (hlen : 8 ≤ buffer.length) (hb : ∀ b ∈ buffer, b < 256) :
    encrypt buffer = buffer.map byteNot
      ∧ covers (encRun buffer).trace 0 buffer.length
      ∧ (encRun buffer).endPos = buffer.length := by
  have h := encLoop_spec buffer.length buffer.length 0 8 buffer
    (by omega) (by omega) (le_refl _) (by omega) (fun _ => by omega) hb
  refine ⟨?_, h.2.1, h.2.2⟩
  unfold encrypt
  rw [show (encRun buffer).buf
      = (encLoop buffer.length buffer.length buffer 0 8).buf from rfl]
  rw [h.1]
  exact slice_full buffer buffer.length rfl

lemma byteNot_bytes (buffer : List Nat) : ∀ b ∈ buffer.map byteNot, b < 256 := by
  intro b hmem
  rcases List.mem_map.mp hmem with ⟨x, _, rfl⟩
  unfold byteNot
  omega

lemma map_byteNot_byteNot (buffer : List Nat) (hb : ∀ b ∈ buffer, b < 256) :
    (buffer.map byteNot).map byteNot = buffer := by
  induction buffer with
  | nil => rfl
  | cons b t ih =>
    have hbb : b < 256 := hb b (by simp)
    have hbt : ∀ x ∈ t, x < 256 := fun x hx => hb x (by simp [hx])
    simp only [List.map_cons, ih hbt]
    unfold byteNot
    congr 1
    omega

/-! ## From a tiling trace to the exactly-once property -/

lemma covers_count_zero :
    ∀ (tr : List (Nat × Nat)) (q len i : Nat), covers tr q len → i < q →
      tr.countP (touches i) = 0 := by
  intro tr
  induction tr with
  | nil => intro q len i _ _; rfl
  | cons e t ih =>
    intro q len i hc hiq
    obtain ⟨he, h1, hb, hrest⟩ := hc
    rw [List.countP_cons]
    have hfalse : touches i e = false := by
      unfold touches
      simp only [decide_eq_false_iff_not]
      omega
    rw [hfalse]
    simp [ih (q + e.2) len i hrest (by omega)]

lemma covers_count :
    ∀ (tr : List (Nat × Nat)) (pos len i : Nat), covers tr pos len →
      pos ≤ i → i < len → tr.countP (touches i) = 1 := by
  intro tr
  induction tr with
  | nil =>
    intro pos len i hc hpi hil
    unfold covers at hc
    omega
  | cons e t ih =>
    intro pos len i hc hpi hil
    obtain ⟨he, h1, hb, hrest⟩ := hc
    rw [List.countP_cons]
    by_cases hin : i < pos + e.2
    · have htrue : touches i e = true := by
        unfold touches
        simp only [decide_eq_true_eq]
        omega
      rw [htrue, covers_count_zero t (pos + e.2) len i hrest hin]
      simp
    · have hfalse : touches i e = false := by
        unfold touches
        simp only [decide_eq_false_iff_not]
        omega
      rw [hfalse]
      simp [ih (pos + e.2) len i hrest (by omega) hil]

/-! ## The block trace does not depend on the buffer contents -/

lemma obfLoop_trace_indep (len : Nat) :
    ∀ fuel pos step (buffer1 buffer2 : List Nat),
      (obfLoop len fuel buffer1 pos step).trace
        = (obfLoop len fuel buffer2 pos step).trace := by
  intro fuel
  induction fuel with
  | zero => intro pos step b1 b2; rfl
  | succ f ih =>
    intro pos step b1 b2
    simp only [obfLoop]
    split
    · simp only [List.cons.injEq, true_and]
      exact ih (pos + degrade pos len step) (degrade pos len step) _ _
    · rfl

/-! ## Step values landed on by the degradation loop, along the sweep -/

lemma obfLoop_step_max (len cap : Nat) :
    ∀ fuel pos step (buffer : List Nat),
      (∃ k, step = 2 ^ k) → step ≤ cap →
      (∀ j, 2 ^ j ≤ cap → pos + 2 ^ j < len → 2 ^ j ≤ step) →
      ∀ p s, (p, s) ∈ (obfLoop len fuel buffer pos step).trace →
        (∃ j, s = 2 ^ j) ∧ s ≤ cap ∧ (p + s < len ∨ s = 1)
          ∧ ∀ j, 2 ^ j ≤ cap → p + 2 ^ j < len → 2 ^ j ≤ s := by
  intro fuel
  induction fuel with
  | zero => intro pos step buffer _ _ _ p s hmem; simp [obfLoop] at hmem
  | succ f ih =>
    intro pos step buffer hpow hcap hinv p s hmem
    obtain ⟨k, rfl⟩ := hpow
    simp only [obfLoop] at hmem
    by_cases hp : pos < len
    · rw [if_pos hp] at hmem
      have h1 : 1 ≤ (2 : Nat) ^ k := Nat.one_le_two_pow
      have hdpow : ∃ j, degrade pos len (2 ^ k) = 2 ^ j := degrade_pow pos len k
      have hdle : degrade pos len (2 ^ k) ≤ 2 ^ k := degrade_le pos len (2 ^ k)
      have hd1 : 1 ≤ degrade pos len (2 ^ k) := degrade_one_le pos len (2 ^ k) h1
      have hmax : ∀ j, 2 ^ j ≤ cap → pos + 2 ^ j < len →
          2 ^ j ≤ degrade pos len (2 ^ k) := by
        intro j hjcap hjfit
        have hjstep : 2 ^ j ≤ 2 ^ k := hinv j hjcap hjfit
        exact degrade_max pos len k j hjstep hjfit
      rcases List.mem_cons.mp hmem with hhead | htail
      · have hp1 : p = pos := congrArg Prod.fst hhead
        have hs1 : s = degrade pos len (2 ^ k) := congrArg Prod.snd hhead
        subst hp1
        subst hs1
        exact ⟨hdpow, by omega, degrade_fits p len (2 ^ k) h1 hp, hmax⟩
      · refine ih (pos + degrade pos len (2 ^ k)) (degrade pos len (2 ^ k)) _
          hdpow (by omega) ?_ p s htail
        intro j hjcap hjfit
        exact hmax j hjcap (by omega)
    · rw [if_neg hp] at hmem
      simp at hmem

/-- src/src/main.c does check the `read_file` result: on a failed read it
returns 1 without invoking the engine or writing any file. -/
lemma fob_main_read_failure (info : cpu_info) :
    fob_main info none = ⟨1, false, false, none⟩ := rfl

/-! ## Claims -/

/-- C1: for every buffer and every capability record, applying the
inversion engine twice with the same length and capabilities restores the
original buffer byte for byte. -/
theorem c1_involution (info : cpu_info) (buffer : List Nat)
    (hb : ∀ b ∈ buffer, b < 256) :
    obfuscate info (obfuscate info buffer) = buffer := by
  rw [(obf_correct info buffer hb).1,
    (obf_correct info (buffer.map byteNot) (byteNot_bytes buffer)).1]
  exact map_byteNot_byteNot buffer hb

theorem c1_involution_witness :
    obfuscate scalarInfo (obfuscate scalarInfo [0, 77, 255]) = [0, 77, 255] :=
  c1_involution scalarInfo [0, 77, 255] (by decide)

/-- C2: one sweep leaves the buffer equal to the bytewise bitwise
complement of its input for every length, the empty buffer included as a
zero-iteration no-op, and every byte index below the length is touched by
exactly one block operation of the trace. -/
theorem c2_complement_exactly_once (info : cpu_info) (buffer : List Nat)
    (hb : ∀ b ∈ buffer, b < 256) :
    obfuscate info buffer = buffer.map byteNot
      ∧ ∀ i, i < buffer.length →
          (obfRun info buffer).trace.countP (touches i) = 1 := by
  obtain ⟨hmap, hcov, _⟩ := obf_correct info buffer hb
  exact ⟨hmap, fun i hi => covers_count _ 0 buffer.length i hcov (Nat.zero_le i) hi⟩

theorem c2_witness :
    obfuscate scalarInfo [3, 200] = [252, 55]
      ∧ (obfRun scalarInfo [3, 200]).trace.countP (touches 1) = 1 := by
  have h := c2_complement_exactly_once scalarInfo [3, 200] (by decide)
  exact ⟨h.1, h.2 1 (by decide)⟩

/-- C3, evaluating src/main.c `encrypt` at the failing input: on a 3-byte
buffer the degradation loop only runs after the block operation, so the
one block applied spans positions 0 to 8, reading and writing indices at
and beyond the length 3. -/
theorem c3_encrypt_out_of_bounds :
    (encRun [10, 20, 30]).trace = [(0, 8)] ∧ ¬ (0 + 8 ≤ (3 : Nat)) := by
  decide

/-- C4, evaluating src/main.c `encrypt` at the failing input: on a 3-byte
buffer the sweep terminates with the cursor at 8, overshooting the
length 3. -/
theorem c4_encrypt_overshoot :
    (encRun [10, 20, 30]).endPos = 8 ∧ (8 : Nat) ≠ 3 := by
  decide

/-- C5 counterexample: with length 8 and scalar capabilities, at the first
iteration the remaining span is 8 and the cap is 8, so the largest
fitting power of two in the sense of the claim is 8 = 2 ^ 3, yet the
degradation loop lands on step 4, strictly below it. -/
theorem c5_counterexample :
    (obfRun scalarInfo [9, 9, 9, 9, 9, 9, 9, 9]).trace.head? = some (0, 4)
      ∧ 2 ^ 3 ≤ initStep scalarInfo
      ∧ 0 + 2 ^ 3 ≤ 8
      ∧ (4 : Nat) < 2 ^ 3 := by
  decide

/-- C5 amended: before each block operation the degraded step is a power of
two at most the capability maximum, it fits strictly inside the remaining
span unless it is 1, and it is the largest power of two within the cap
that fits strictly inside the remaining span whenever one exists; in
particular, when the remaining span is exactly a power of two not above
the cap, the landed step is half the span, not the span itself. -/
theorem c5_degradation_maximal (info : cpu_info) (buffer : List Nat)
    (p s : Nat) (hmem : (p, s) ∈ (obfRun info buffer).trace) :
    (∃ j, s = 2 ^ j) ∧ s ≤ initStep info
      ∧ (p + s < buffer.length ∨ s = 1)
      ∧ ∀ j, 2 ^ j ≤ initStep info → p + 2 ^ j < buffer.length → 2 ^ j ≤ s := by
  obtain ⟨k, hk⟩ := initStep_pow info
  exact obfLoop_step_max buffer.length (initStep info) buffer.length 0
    (initStep info) buffer ⟨k, hk⟩ (le_refl _) (fun j hj _ => hj) p s hmem

theorem c5_witness :
    (∃ j, (8 : Nat) = 2 ^ j) ∧ 8 ≤ initStep scalarInfo
      ∧ (0 + 8 < 10 ∨ (8 : Nat) = 1)
      ∧ ∀ j, 2 ^ j ≤ initStep scalarInfo → 0 + 2 ^ j < 10 → 2 ^ j ≤ 8 :=
  c5_degradation_maximal scalarInfo [0, 1, 2, 3, 4, 5, 6, 7, 8, 9] 0 8 (by decide)

/-- C6 counterexample: with length 8 and scalar capabilities the engine
applies four block operations, not exactly one 8-byte block. -/
theorem c6_counterexample :
    (obfRun scalarInfo [1, 2, 3, 4, 5, 6, 7, 8]).trace
        = [(0, 4), (4, 2), (6, 1), (7, 1)]
      ∧ (obfRun scalarInfo [1, 2, 3, 4, 5, 6, 7, 8]).trace.length ≠ 1 := by
  decide

/-- C6 amended: with length 8 and scalar-only capabilities the engine
applies four block operations, of widths 4, 2, 1, 1 at positions
0, 4, 6, 7, and the result is the bitwise complement of all 8 input
bytes. -/
theorem c6_length_eight (buffer : List Nat) (hlen : buffer.length = 8)
    (hb : ∀ b ∈ buffer, b < 256) :
    obfuscate scalarInfo buffer = buffer.map byteNot
      ∧ (obfRun scalarInfo buffer).trace = [(0, 4), (4, 2), (6, 1), (7, 1)] := by
  refine ⟨(obf_correct scalarInfo buffer hb).1, ?_⟩
  show (obfLoop buffer.length buffer.length buffer 0 (initStep scalarInfo)).trace = _
  rw [hlen]
  rw [obfLoop_trace_indep 8 8 0 (initStep scalarInfo) buffer (List.replicate 8 0)]
  decide

theorem c6_witness :
    obfuscate scalarInfo [8, 7, 6, 5, 4, 3, 2, 1]
        = [247, 248, 249, 250, 251, 252, 253, 254]
      ∧ (obfRun scalarInfo [8, 7, 6, 5, 4, 3, 2, 1]).trace
        = [(0, 4), (4, 2), (6, 1), (7, 1)] :=
  c6_length_eight [8, 7, 6, 5, 4, 3, 2, 1] (by decide) (by decide)

/-- C7 counterexample: with length 10 and scalar capabilities the three
blocks have widths 8, 1, 1 at positions 0, 8, 9, not widths 4, 4, 2 at
positions 0, 4, 8. -/
theorem c7_counterexample :
    (obfRun scalarInfo [0, 0, 0, 0, 0, 0, 0, 0, 0, 0]).trace
        = [(0, 8), (8, 1), (9, 1)]
      ∧ (obfRun scalarInfo [0, 0, 0, 0, 0, 0, 0, 0, 0, 0]).trace
        ≠ [(0, 4), (4, 4), (8, 2)] := by
  decide

/-- C7 amended: with length 10 and scalar-only capabilities the engine
applies exactly three block operations, of widths 8, 1 and 1, at
positions 0, 8 and 9 respectively. -/
theorem c7_length_ten (buffer : List Nat) (hlen : buffer.length = 10)
    (hb : ∀ b ∈ buffer, b < 256) :
    obfuscate scalarInfo buffer = buffer.map byteNot
      ∧ (obfRun scalarInfo buffer).trace = [(0, 8), (8, 1), (9, 1)] := by
  refine ⟨(obf_correct scalarInfo buffer hb).1, ?_⟩
  show (obfLoop buffer.length buffer.length buffer 0 (initStep scalarInfo)).trace = _
  rw [hlen]
  rw [obfLoop_trace_indep 10 10 0 (initStep scalarInfo) buffer (List.replicate 10 0)]
  decide

theorem c7_witness :
    obfuscate scalarInfo [0, 1, 2, 3, 4, 5, 6, 7, 8, 9]
        = [255, 254, 253, 252, 251, 250, 249, 248, 247, 246]
      ∧ (obfRun scalarInfo [0, 1, 2, 3, 4, 5, 6, 7, 8, 9]).trace
        = [(0, 8), (8, 1), (9, 1)] :=
  c7_length_ten [0, 1, 2, 3, 4, 5, 6, 7, 8, 9] (by decide) (by decide)

/-- C8: for buffers of equal length processed under capability records with
the same maximum width, the engine generates the identical sequence of
(position, step) block boundaries, whatever the buffer contents: the trace
is a pure function of the length and the maximum step width. -/
theorem c8_trace_deterministic (info1 info2 : cpu_info)
    (buffer1 buffer2 : List Nat) (hstep : initStep info1 = initStep info2)
    (hlen : buffer1.length = buffer2.length) :
    (obfRun info1 buffer1).trace = (obfRun info2 buffer2).trace := by
  show (obfLoop buffer1.length buffer1.length buffer1 0 (initStep info1)).trace = _
  rw [hlen, hstep]
  exact obfLoop_trace_indep buffer2.length buffer2.length 0 (initStep info2)
    buffer1 buffer2

theorem c8_witness :
    (obfRun scalarInfo [1, 2, 3, 4, 5]).trace
      = (obfRun scalarInfo [200, 0, 9, 9, 9]).trace :=
  c8_trace_deterministic scalarInfo scalarInfo [1, 2, 3, 4, 5]
    [200, 0, 9, 9, 9] rfl rfl

/-- C9, evaluating src/main.c `main` at the failing input: when `read_file`
reports failure its NULL result is never checked, so the engine is still
invoked, `writeback_file` still runs, and the process exits 0. -/
theorem c9_read_failure_unchecked :
    (vega_main none).invokedEngine = true ∧ (vega_main none).wroteOutput = true
      ∧ (vega_main none).exitCode = 0 := by
  decide

/-- C10 counterexample: on a 9-byte buffer with scalar-only capabilities
the two revisions generate the very same block trace, so their traces do
not differ in general. -/
theorem c10_counterexample :
    (encRun [1, 2, 3, 4, 5, 6, 7, 8, 9]).trace
      = (obfRun scalarInfo [1, 2, 3, 4, 5, 6, 7, 8, 9]).trace := by
  decide

/-- C10 amended: for every buffer of length at least 8 processed with
scalar-only capabilities, `encrypt` of src/main.c and `obfuscate` of
src/src/main.c produce identical output buffers, namely the bytewise
complement of the input. -/
theorem c10_revisions_agree (buffer : List Nat) (hlen : 8 ≤ buffer.length)
    (hb : ∀ b ∈ buffer, b < 256) :
    encrypt buffer = buffer.map byteNot
      ∧ obfuscate scalarInfo buffer = buffer.map byteNot :=
  ⟨(enc_correct buffer hlen hb).1, (obf_correct scalarInfo buffer hb).1⟩

theorem c10_witness :
    encrypt [0, 1, 2, 3, 4, 5, 6, 7, 8]
        = [255, 254, 253, 252, 251, 250, 249, 248, 247]
      ∧ obfuscate scalarInfo [0, 1, 2, 3, 4, 5, 6, 7, 8]
        = [255, 254, 253, 252, 251, 250, 249, 248, 247] :=
  c10_revisions_agree [0, 1, 2, 3, 4, 5, 6, 7, 8] (by decide) (by decide)

